import Mathlib

/-!
Verification of the SnipLogic browser-extension expansion engine.

The definitions below are a shallow embedding of the two core source files:

* packages/extension/src/content.ts — trigger detection, variable
  substitution, cursor-marker protocol, and the surface replace operations;
* packages/extension/src/background.ts — the TTL-bounded shortcut cache and
  the 401 session-invalidation logic of the background service worker.

Strings are modelled as List Char.  JavaScript regular-expression matching
is modelled by explicit scanners proven below to agree with the regex
semantics of the source.  The theorems at the end of the file settle the
frozen specification claims.
-/

namespace SnipLogic

/-- The two brace characters, written via escapes so that no string literal
in this file needs to contain a raw brace. -/
def lbrace : Char := '\x7b'

def rbrace : Char := '\x7d'

/-- Sentinel character used to mark the cursor position during plain-text
insertion (CURSOR_SENTINEL = the caret character U+2038 in content.ts). -/
def SENT : Char := '‸'

/-- Character class of VAR_RE in content.ts: [a-zA-Z0-9_]. -/
def isVarChar (c : Char) : Bool :=
  ('a' ≤ c && c ≤ 'z') || ('A' ≤ c && c ≤ 'Z') || ('0' ≤ c && c ≤ '9') || c = '_'

/-- Character class of SHORTCUT_RE in content.ts: [a-zA-Z0-9_-]. -/
def isShortcutChar (c : Char) : Bool :=
  isVarChar c || c = '-'

/-- The literal variable-token text for a name: two opening braces, the
name, two closing braces. -/
def varTokenLit (tok : List Char) : List Char :=
  lbrace :: lbrace :: (tok ++ [rbrace, rbrace])

/-- Attempt to parse, at the position immediately after two opening braces,
a nonempty run of VAR_RE word characters followed by two closing braces.
Returns the token and the remainder of the text after the closing braces.
This is the anatomy of one match of VAR_RE. -/
def parseVar (s : List Char) : Option (List Char × List Char) :=
  let tok := s.takeWhile isVarChar
  let rest := s.dropWhile isVarChar
  if tok = [] then none
  else if rest.take 2 = [rbrace, rbrace] then some (tok, rest.drop 2) else none

/-- Fuel-indexed scanner for text.replace(VAR_RE, cb): walk the text left to
right; at a position starting with two opening braces where a full token
parses, emit the callback result and resume after the match (matches are
non-overlapping and replacements are not rescanned, as with String.replace);
otherwise emit one character and move on.  Fuel equal to the length of the
text always suffices. -/
def substVarsF (f : List Char → List Char) : Nat → List Char → List Char
  | 0, s => s
  | n + 1, s =>
    match s with
    | [] => []
    | c :: cs =>
      if c = lbrace ∧ cs.take 1 = [lbrace] then
        (parseVar (cs.drop 1)).elim (c :: substVarsF f n cs)
          (fun pr => f pr.1 ++ substVarsF f n pr.2)
      else c :: substVarsF f n cs

/-- text.replace(VAR_RE, cb) on a List Char model of the text. -/
def substVars (f : List Char → List Char) (s : List Char) : List Char :=
  substVarsF f s.length s

/-- The list of tokens matched by VAR_RE over the text, in order: the same
scan as substVarsF, collecting the matched token names. -/
def tokensOfF : Nat → List Char → List (List Char)
  | 0, _ => []
  | n + 1, s =>
    match s with
    | [] => []
    | c :: cs =>
      if c = lbrace ∧ cs.take 1 = [lbrace] then
        (parseVar (cs.drop 1)).elim (tokensOfF n cs)
          (fun pr => pr.1 :: tokensOfF n pr.2)
      else tokensOfF n cs

def tokensOf (s : List Char) : List (List Char) :=
  tokensOfF s.length s

/-- One global single-character replace, str.replace(/c/g, r). -/
def replaceAllChar (c : Char) (r : List Char) : List Char → List Char
  | [] => []
  | x :: xs => (if x = c then r else [x]) ++ replaceAllChar c r xs

/-- escapeHtml from content.ts: four chained global replaces, ampersand
first. -/
def escapeHtml (s : List Char) : List Char :=
  replaceAllChar '\"' "&quot;".data
    (replaceAllChar '>' "&gt;".data
      (replaceAllChar '<' "&lt;".data
        (replaceAllChar '&' "&amp;".data s)))

/-- Per-character escaping of the four HTML-special characters, written from
the words of the specification; proven below to coincide with escapeHtml. -/
def htmlEscapeChar (c : Char) : List Char :=
  if c = '&' then "&amp;".data
  else if c = '<' then "&lt;".data
  else if c = '>' then "&gt;".data
  else if c = '\"' then "&quot;".data
  else [c]

/-- Whole-string per-character HTML escaping, the specification-side
description of escapeHtml; proven equal to escapeHtml below. -/
def htmlEscaped : List Char → List Char
  | [] => []
  | c :: cs => htmlEscapeChar c ++ htmlEscaped cs

/-- Variable scope as stored in the cache. -/
inductive Scope where
  | USER : Scope
  | WORKSPACE : Scope
deriving DecidableEq

/-- One entry of the cached static-variable list. -/
structure CachedVariable where
  name : List Char
  value : List Char
  scope : Scope
  workspaceId : Option (List Char)
deriving DecidableEq

/-- The values of the ten computed date/time variables at resolution time.
Each field holds whatever string the corresponding Intl/Date computation of
resolveDynamicVars produced for the current instant. -/
structure DynEnv where
  datelong : List Char
  dateshort : List Char
  dateiso : List Char
  datemedium : List Char
  time : List Char
  time24 : List Char
  datetime : List Char
  dayofweek : List Char
  month : List Char
  year : List Char
deriving DecidableEq

def datelongName : List Char := "datelong".data
def dateshortName : List Char := "dateshort".data
def dateisoName : List Char := "dateiso".data
def datemediumName : List Char := "datemedium".data
def timeName : List Char := "time".data
def time24Name : List Char := "time24".data
def datetimeName : List Char := "datetime".data
def dayofweekName : List Char := "dayofweek".data
def monthName : List Char := "month".data
def yearName : List Char := "year".data
def cursorName : List Char := "cursor".data
def clipboardName : List Char := "clipboard".data

/-- Object.entries of the record returned by resolveDynamicVars, in the
insertion order of the object literal in content.ts. -/
def dynamicEntries (env : DynEnv) : List (List Char × List Char) :=
  [(datelongName, env.datelong), (dateshortName, env.dateshort),
   (dateisoName, env.dateiso), (datemediumName, env.datemedium),
   (timeName, env.time), (time24Name, env.time24),
   (datetimeName, env.datetime), (dayofweekName, env.dayofweek),
   (monthName, env.month), (yearName, env.year)]

/-- The names of the dynamic variables. -/
def dynamicNames : List (List Char) :=
  [datelongName, dateshortName, dateisoName, datemediumName, timeName,
   time24Name, datetimeName, dayofweekName, monthName, yearName]

/-- One Map.set step: later writes override earlier ones on lookup. -/
def mapSet (m : List Char → Option (List Char)) (e : List Char × List Char) :
    List Char → Option (List Char) :=
  fun n => if n = e.1 then some e.2 else m n

/-- The workspace-scoped (name, value) pairs, in cache order. -/
def wsEntries (vars : List CachedVariable) : List (List Char × List Char) :=
  (vars.filter (fun v => decide (v.scope = Scope.WORKSPACE))).map
    (fun v => (v.name, v.value))

/-- The user-scoped (name, value) pairs, in cache order. -/
def userEntries (vars : List CachedVariable) : List (List Char × List Char) :=
  (vars.filter (fun v => decide (v.scope = Scope.USER))).map
    (fun v => (v.name, v.value))

/-- The varMap of applyStaticAndDynamic: workspace-scoped entries are set
first, user-scoped entries second, dynamic entries last, into one Map whose
get this function models. -/
def varMapOf (vars : List CachedVariable) (env : DynEnv) :
    List Char → Option (List Char) :=
  (wsEntries vars ++ userEntries vars ++ dynamicEntries env).foldl mapSet
    (fun _ => none)

/-- The HTML form of the cursor marker inserted for a cursor token. -/
def cursorSpanHtml : List Char :=
  "<span id=\"sniplogic-cursor\"></span>".data

/-- The replacement callback of applyStaticAndDynamic, applied to one
matched token name: cursor and clipboard are special-cased before the map
lookup, known names substitute their (HTML-escaped, in HTML mode) value,
unknown tokens are returned verbatim as the full matched text. -/
def resolveToken (vars : List CachedVariable) (env : DynEnv) (isHtml : Bool)
    (clipboardText : List Char) (tok : List Char) : List Char :=
  if tok = cursorName then
    if isHtml then cursorSpanHtml else [SENT]
  else if tok = clipboardName then
    if isHtml then escapeHtml clipboardText else clipboardText
  else
    match varMapOf vars env tok with
    | some v => if isHtml then escapeHtml v else v
    | none => varTokenLit tok

/-- applyStaticAndDynamic from content.ts. -/
def applyStaticAndDynamic (vars : List CachedVariable) (env : DynEnv)
    (text : List Char) (isHtml : Bool) (clipboardText : List Char) :
    List Char :=
  substVars (resolveToken vars env isHtml clipboardText) text

/-- extractTrailingShortcut from content.ts: the trailing match of
SHORTCUT_RE (two slashes followed by a nonempty run of shortcut characters
reaching the end of the text).  Returns the typed form (with both slashes)
and the lookup form (one slash stripped). -/
def extractTrailingShortcut (text : List Char) :
    Option (List Char × List Char) :=
  let rev := text.reverse
  let tokRev := rev.takeWhile isShortcutChar
  if tokRev = [] then none
  else if (rev.drop tokRev.length).take 2 = ['/', '/'] then
    some ('/' :: '/' :: tokRev.reverse, '/' :: tokRev.reverse)
  else none

/-- Outcome of the Tab keydown handler for one keystroke: whether the
default Tab behavior was suppressed (preventDefault and stopPropagation),
and the lookup key of the EXPAND_SHORTCUT request dispatched, if any. -/
structure TabDecision where
  suppressed : Bool
  dispatched : Option (List Char)
deriving DecidableEq

/-- The decision logic of the keydown listener in content.ts, given the
text before the cursor, the known-shortcut cache, and the liveness of the
extension context: on a trailing shortcut whose lookup form is cached and a
live context, suppress Tab and dispatch; otherwise do nothing. -/
def handleTab (textBeforeCursor : List Char) (known : List (List Char))
    (ctxValid : Bool) : TabDecision :=
  match extractTrailingShortcut textBeforeCursor with
  | none => ⟨false, none⟩
  | some pr =>
    if pr.2 ∈ known then
      if ctxValid then ⟨true, some pr.2⟩ else ⟨false, none⟩
    else ⟨false, none⟩

/-- Index of the first occurrence of a character in a list (meaningful when
the character is present; the replace code guards with a membership check,
mirroring the indexOf !== -1 test of the source). -/
def listIndexOf (a : Char) : List Char → Nat
  | [] => 0
  | c :: cs => if c = a then 0 else listIndexOf a cs + 1

/-- State of an input or textarea: its value and its tracked selection
(start, end), None when the field never received a caret. -/
structure InputState where
  value : List Char
  sel : Option (Nat × Nat)
deriving DecidableEq

/-- The value of the input after the insertText step of replaceInInput: the
span of the typed shortcut ending at the caret is selected and replaced by
the content (both the execCommand path and the value-assignment fallback
produce this value). -/
def insertedInputValue (st : InputState) (shortcut content : List Char) :
    List Char :=
  let cursorPos := (st.sel.map Prod.fst).getD st.value.length
  let shortcutStart := (st.value.take cursorPos).length - shortcut.length
  st.value.take shortcutStart ++ content ++ st.value.drop cursorPos

/-- replaceInInput from content.ts.  execOk tells whether the native
insertText editing command succeeded; on failure the fallback assigns the
value directly (leaving the caret at the end of the field).  If the content
carries the cursor sentinel, the sentinel is then located, selected,
deleted, and the collapsed selection is left at its index. -/
def replaceInInput (st : InputState) (shortcut content : List Char)
    (execOk : Bool) : InputState :=
  let cursorPos := (st.sel.map Prod.fst).getD st.value.length
  let shortcutStart := (st.value.take cursorPos).length - shortcut.length
  let value1 := insertedInputValue st shortcut content
  let caret1 := if execOk then shortcutStart + content.length
    else value1.length
  let st1 : InputState := ⟨value1, some (caret1, caret1)⟩
  if SENT ∈ content then
    if SENT ∈ value1 then
      let idx := listIndexOf SENT value1
      ⟨value1.take idx ++ value1.drop (idx + 1), some (idx, idx)⟩
    else st1
  else st1

/-- placeCursorAfterSentinel from content.ts, over the sequence of text
nodes visited by the tree walker (each node is its text content): the first
node containing the sentinel has it trimmed out and the selection collapses
to (node index, character offset the sentinel occupied). -/
def placeCursorAfterSentinel :
    List (List Char) → List (List Char) × Option (Nat × Nat)
  | [] => ([], none)
  | t :: rest =>
    if SENT ∈ t then
      ((t.take (listIndexOf SENT t) ++ t.drop (listIndexOf SENT t + 1))
         :: rest,
       some (0, listIndexOf SENT t))
    else
      let r := placeCursorAfterSentinel rest
      (t :: r.1, r.2.map (fun p => (p.1 + 1, p.2)))

/-- The node holding the selection start inside a contenteditable region:
either a text node with its text content, or some non-text node. -/
inductive CaretNode where
  | textNode : List Char → CaretNode
  | elementNode : CaretNode
deriving DecidableEq

/-- The selection start of the active range: its container node and offset. -/
structure EditableCaret where
  node : CaretNode
  offset : Nat
deriving DecidableEq

/-- The mutation replaceInEditable performs when it does not abort: the
shortcut span [start, stop) of the caret text node is selected and replaced
through insertHTML (rich content available) or insertText (plain content,
with a flag recording whether the sentinel walk will run afterwards). -/
inductive EditMutation where
  | insertHtml : Nat → Nat → List Char → EditMutation
  | insertPlain : Nat → Nat → List Char → Bool → EditMutation
deriving DecidableEq

/-- replaceInEditable from content.ts.  None models the silent abort paths:
no active range, selection start not inside a text node, or a typed
shortcut that does not fit in the text before the caret offset.  The
htmlContent branch follows JavaScript truthiness: an empty rich body falls
through to the plain path. -/
def replaceInEditable (sel : Option EditableCaret)
    (shortcut content : List Char) (htmlContent : Option (List Char)) :
    Option EditMutation :=
  match sel with
  | none => none
  | some caret =>
    match caret.node with
    | CaretNode.elementNode => none
    | CaretNode.textNode s =>
      let textBefore := s.take caret.offset
      if textBefore.length < shortcut.length then none
      else
        let shortcutStart := textBefore.length - shortcut.length
        if htmlContent.getD [] ≠ [] then
          some (EditMutation.insertHtml shortcutStart caret.offset
            (htmlContent.getD []))
        else
          some (EditMutation.insertPlain shortcutStart caret.offset content
            (decide (SENT ∈ content)))

/-- Does pat occur at the start of s. -/
def startsWithChars : List Char → List Char → Bool
  | [], _ => true
  | _ :: _, [] => false
  | p :: ps, c :: cs => p = c && startsWithChars ps cs

/-- str.includes(pat): does pat occur anywhere in s. -/
def hasSub (pat : List Char) : List Char → Bool
  | [] => startsWithChars pat []
  | c :: cs => startsWithChars pat (c :: cs) || hasSub pat cs

/-- The literal clipboard token text the keydown handler searches for. -/
def clipboardTokenLit : List Char := varTokenLit clipboardName

/-- The gate in the keydown handler of content.ts: the asynchronous
clipboard read runs exactly when the literal clipboard token occurs in the
plain content or in the (present) HTML content. -/
def clipboardNeeded (content : List Char) (htmlContent : Option (List Char)) :
    Bool :=
  hasSub clipboardTokenLit content ||
    htmlContent.elim false (fun h => hasSub clipboardTokenLit h)

/-- The clipboard string passed to resolution: empty when no read was
needed, the read result on success, and the empty string when the read
failed (None models a rejected or unsupported clipboard API). -/
def clipboardTextResolved (content : List Char)
    (htmlContent : Option (List Char)) (readResult : Option (List Char)) :
    List Char :=
  if clipboardNeeded content htmlContent then readResult.getD [] else []

/-! Background service worker (background.ts). -/

/-- The cache freshness window, CACHE_TTL_MS = 5 minutes. -/
def CACHE_TTL_MS : Nat := 5 * 60 * 1000

/-- The extension's local storage fields used by the service worker. -/
structure BgStorage where
  token : Option (List Char)
  user : Option (List Char)
  apiUrl : Option (List Char)
  shortcuts : Option (List (List Char))
  shortcutsLastFetched : Option Nat
deriving DecidableEq

/-- clearAuth: removes token, user, shortcuts and the fetch timestamp. -/
def clearAuth (st : BgStorage) : BgStorage :=
  { st with token := none, user := none, shortcuts := none,
            shortcutsLastFetched := none }

/-- One row of the GET /snippets/shortcuts response body. -/
structure ShortcutRow where
  shortcut : Option (List Char)
  name : List Char
deriving DecidableEq

/-- Outcome of one HTTP fetch: a response with a status code and a parsed
body, or a network error (the fetch promise rejecting). -/
inductive HttpOutcome (α : Type) where
  | resp : Nat → α → HttpOutcome α
  | netError : HttpOutcome α
deriving DecidableEq

/-- Response.ok: status in the 2xx range. -/
def respOk (status : Nat) : Bool :=
  200 ≤ status && status < 300

/-- fetchShortcuts from background.ts: a 401 clears the local session and
yields the empty list; any other non-2xx status throws (Except.error); a
2xx response yields the non-null shortcut keys of the body rows. -/
def fetchShortcuts (net : HttpOutcome (List ShortcutRow)) (st : BgStorage) :
    BgStorage × Except Unit (List (List Char)) :=
  match net with
  | HttpOutcome.netError => (st, Except.error ())
  | HttpOutcome.resp status body =>
    if status = 401 then (clearAuth st, Except.ok [])
    else if respOk status then
      (st, Except.ok (body.filterMap (fun r => r.shortcut)))
    else (st, Except.error ())

/-- JavaScript falsiness of an optional number: undefined or zero. -/
def jsFalsyNat (o : Option Nat) : Bool :=
  match o with
  | none => true
  | some n => n = 0

/-- JavaScript falsiness of an optional string: undefined or the empty
string (the !storage.token checks of background.ts). -/
def jsFalsyStr (o : Option (List Char)) : Bool :=
  match o with
  | none => true
  | some s => s = []

/-- getShortcuts from background.ts.  The middle component records whether
a network fetch was performed.  With a JS-falsy token (absent or empty,
the !storage.token check) the empty list is returned without fetching;
with a fresh, present cache and no forced refresh the cached list is served
without fetching; otherwise the list is refetched, stored together with the
current timestamp, and returned (errors propagate without storing). -/
def getShortcuts (st : BgStorage) (now : Nat) (forceRefresh : Bool)
    (net : HttpOutcome (List ShortcutRow)) :
    BgStorage × Bool × Except Unit (List (List Char)) :=
  if jsFalsyStr st.token then (st, false, Except.ok [])
  else
    let stale : Prop :=
      st.shortcuts.isNone = true ∨ jsFalsyNat st.shortcutsLastFetched = true ∨
        (now : Int) - (st.shortcutsLastFetched.getD 0 : Int) > CACHE_TTL_MS
    if ¬forceRefresh ∧ ¬stale ∧ st.shortcuts.isSome = true then
      (st, false, Except.ok (st.shortcuts.getD []))
    else
      match fetchShortcuts net st with
      | (st1, Except.ok l) =>
        ({ st1 with shortcuts := some l, shortcutsLastFetched := some now },
         true, Except.ok l)
      | (st1, Except.error e) => (st1, true, Except.error e)

/-- The body of GET /snippets/shortcut/:key on success. -/
structure SnippetBody where
  content : List Char
  htmlContent : Option (List Char)
  name : List Char
deriving DecidableEq

/-- The cross-context messages handled by the service worker. -/
inductive BgMessage where
  | GET_SHORTCUTS : BgMessage
  | EXPAND_SHORTCUT : List Char → BgMessage
  | GET_STATUS : BgMessage
deriving DecidableEq

/-- The responses the service worker sends back. -/
inductive BgResponse where
  | shortcutList : List (List Char) → BgResponse
  | SNIPPET : List Char → Option (List Char) → List Char → BgResponse
  | NOT_FOUND : BgResponse
  | NOT_LOGGED_IN : BgResponse
  | status : Bool → Nat → Option (List Char) → BgResponse
deriving DecidableEq

/-- The onMessage listener of background.ts: reads storage once, then
serves the message.  GET_SHORTCUTS returns the (possibly refetched) list,
with the empty list on any thrown error; EXPAND_SHORTCUT requires a
JS-truthy token (the !storage.token check, so an empty token answers
NOT_LOGGED_IN without touching storage), maps 401 to session invalidation
plus NOT_LOGGED_IN, and maps 404, any other non-2xx status and network
errors to NOT_FOUND; GET_STATUS reports token truthiness
(loggedIn = two negations of storage.token), the stored shortcut count and
the user email. -/
def handleMessage (st : BgStorage) (now : Nat)
    (shortcutsNet : HttpOutcome (List ShortcutRow))
    (snippetNet : HttpOutcome SnippetBody) (msg : BgMessage) :
    BgStorage × BgResponse :=
  match msg with
  | BgMessage.GET_SHORTCUTS =>
    match getShortcuts st now false shortcutsNet with
    | (st1, _, Except.ok l) => (st1, BgResponse.shortcutList l)
    | (st1, _, Except.error _) => (st1, BgResponse.shortcutList [])
  | BgMessage.EXPAND_SHORTCUT _ =>
    if jsFalsyStr st.token then (st, BgResponse.NOT_LOGGED_IN)
    else
      match snippetNet with
      | HttpOutcome.netError => (st, BgResponse.NOT_FOUND)
      | HttpOutcome.resp status body =>
        if status = 401 then (clearAuth st, BgResponse.NOT_LOGGED_IN)
        else if status = 404 then (st, BgResponse.NOT_FOUND)
        else if respOk status then
          (st, BgResponse.SNIPPET body.content body.htmlContent body.name)
        else (st, BgResponse.NOT_FOUND)
  | BgMessage.GET_STATUS =>
    (st, BgResponse.status (!jsFalsyStr st.token)
      (st.shortcuts.getD []).length st.user)

/-- A concrete dynamic environment used by the closed witness theorems. -/
def testEnv : DynEnv :=
  ⟨"DL".data, "DS".data, "DI".data, "DM".data, "T".data, "T24".data,
   "DT".data, "DOW".data, "MO".data, "Y".data⟩

/-! Scanner structure lemmas. -/

lemma takeWhile_append_all {p : Char → Bool} {l1 : List Char}
    (l2 : List Char) (h : ∀ c ∈ l1, p c = true) :
    (l1 ++ l2).takeWhile p = l1 ++ l2.takeWhile p := by
  induction l1 with
  | nil => simp
  | cons a l ih =>
    have ha : p a = true := h a (by simp)
    have ih2 := ih (fun c hc => h c (List.mem_cons_of_mem a hc))
    simp [List.takeWhile_cons, ha, ih2]

lemma dropWhile_append_all {p : Char → Bool} {l1 : List Char}
    (l2 : List Char) (h : ∀ c ∈ l1, p c = true) :
    (l1 ++ l2).dropWhile p = l2.dropWhile p := by
  induction l1 with
  | nil => simp
  | cons a l ih =>
    have ha : p a = true := h a (by simp)
    have ih2 := ih (fun c hc => h c (List.mem_cons_of_mem a hc))
    simp [List.dropWhile_cons, ha, ih2]

lemma takeWhile_append_stop {p : Char → Bool} {l1 : List Char}
    (l2 : List Char) (h : ∃ c ∈ l1, p c = false) :
    (l1 ++ l2).takeWhile p = l1.takeWhile p ∧
      (l1 ++ l2).dropWhile p = l1.dropWhile p ++ l2 := by
  induction l1 with
  | nil => simp at h
  | cons a l ih =>
    by_cases ha : p a
    · have hl : ∃ c ∈ l, p c = false := by
        rcases h with ⟨c, hc, hpc⟩
        rcases List.mem_cons.mp hc with rfl | hc
        · exact absurd ha (by simp [hpc])
        · exact ⟨c, hc, hpc⟩
      rcases ih hl with ⟨h1, h2⟩
      simp [List.takeWhile_cons, List.dropWhile_cons, ha, h1, h2]
    · simp [List.takeWhile_cons, List.dropWhile_cons, ha]

lemma dropWhile_head_false {p : Char → Bool} (l : List Char) :
    ∀ {d : Char} {ds : List Char}, l.dropWhile p = d :: ds → p d = false := by
  induction l with
  | nil => intro d ds h; simp at h
  | cons a t ih =>
    intro d ds h
    by_cases ha : p a
    · exact ih (by simpa [List.dropWhile_cons, ha] using h)
    · rw [List.dropWhile_cons, if_neg (by simp [ha])] at h
      cases h
      simpa using ha

lemma mem_dropWhile_mem {p : Char → Bool} (l : List Char) :
    ∀ {c : Char}, c ∈ l.dropWhile p → c ∈ l := by
  induction l with
  | nil => intro c h; simp at h
  | cons a t ih =>
    intro c h
    by_cases ha : p a
    · exact List.mem_cons_of_mem a (ih (by simpa [List.dropWhile_cons, ha] using h))
    · rw [List.dropWhile_cons, if_neg (by simp [ha])] at h
      exact h

lemma parseVar_some_dest {s tok rem : List Char}
    (h : parseVar s = some (tok, rem)) :
    tok ≠ [] ∧ (∀ c ∈ tok, isVarChar c = true) ∧
      s = tok ++ rbrace :: rbrace :: rem := by
  have he : parseVar s =
      if s.takeWhile isVarChar = [] then none
      else if (s.dropWhile isVarChar).take 2 = [rbrace, rbrace] then
        some (s.takeWhile isVarChar, (s.dropWhile isVarChar).drop 2)
      else none := rfl
  rw [he] at h
  by_cases h1 : s.takeWhile isVarChar = []
  · rw [if_pos h1] at h
    exact absurd h (by simp)
  · rw [if_neg h1] at h
    by_cases h2 : (s.dropWhile isVarChar).take 2 = [rbrace, rbrace]
    · rw [if_pos h2] at h
      have h3 := Option.some.inj h
      have htok : s.takeWhile isVarChar = tok := congrArg Prod.fst h3
      have hrem : (s.dropWhile isVarChar).drop 2 = rem := congrArg Prod.snd h3
      refine ⟨htok ▸ h1, ?_, ?_⟩
      · intro c hc
        exact List.mem_takeWhile_imp (htok ▸ hc)
      · have hsplit : s.takeWhile isVarChar ++ s.dropWhile isVarChar = s :=
          List.takeWhile_append_dropWhile isVarChar s
        have hdw : s.dropWhile isVarChar = rbrace :: rbrace :: rem := by
          conv_lhs => rw [← List.take_append_drop 2 (s.dropWhile isVarChar)]
          rw [h2, hrem]
          rfl
        rw [← hsplit, htok, hdw]
    · rw [if_neg h2] at h
      exact absurd h (by simp)

lemma parseVar_token {x : List Char} (hx : x ≠ [])
    (hall : ∀ c ∈ x, isVarChar c = true) :
    parseVar (x ++ [rbrace, rbrace]) = some (x, []) := by
  have ht : (x ++ [rbrace, rbrace]).takeWhile isVarChar = x := by
    rw [takeWhile_append_all _ hall]
    simp [List.takeWhile_cons, rbrace, isVarChar]
  have hd : (x ++ [rbrace, rbrace]).dropWhile isVarChar =
      [rbrace, rbrace] := by
    rw [dropWhile_append_all _ hall]
    simp [List.dropWhile_cons, rbrace, isVarChar]
  simp [parseVar, ht, hd, hx]

lemma parseVar_some_len {s tok rem : List Char}
    (h : parseVar s = some (tok, rem)) : rem.length + 3 ≤ s.length := by
  rcases parseVar_some_dest h with ⟨h1, _, h3⟩
  have : 1 ≤ tok.length := by
    cases tok with
    | nil => exact absurd rfl h1
    | cons a t => simp
  subst h3
  simp only [List.length_append, List.length_cons]
  omega

lemma substVarsF_nil (f : List Char → List Char) (n : Nat) :
    substVarsF f n [] = [] := by
  cases n <;> simp [substVarsF]

lemma substVarsF_congr (f : List Char → List Char) :
    ∀ n m s, s.length ≤ n → s.length ≤ m →
      substVarsF f n s = substVarsF f m s := by
  intro n
  induction n with
  | zero =>
    intro m s hn _
    have : s = [] := List.length_eq_zero.mp (Nat.le_zero.mp hn)
    subst this
    simp [substVarsF_nil]
  | succ n ih =>
    intro m s hn hm
    cases s with
    | nil => simp [substVarsF_nil]
    | cons c cs =>
      cases m with
      | zero => simp at hm
      | succ m =>
        simp only [substVarsF]
        by_cases hc : c = lbrace ∧ cs.take 1 = [lbrace]
        · rw [if_pos hc, if_pos hc]
          cases hp : parseVar (cs.drop 1) with
          | none =>
            simp only [Option.elim, List.cons.injEq, true_and]
            exact ih m cs (by simp at hn; omega) (by simp at hm; omega)
          | some pr =>
            have hlen := parseVar_some_len hp
            have hdl : (cs.drop 1).length ≤ cs.length := by
              simp [List.length_drop]
            simp only [Option.elim, List.append_cancel_left_eq]
            exact ih m pr.2 (by simp at hn; omega) (by simp at hm; omega)
        · rw [if_neg hc, if_neg hc]
          simp only [List.cons.injEq, true_and]
          exact ih m cs (by simp at hn; omega) (by simp at hm; omega)

lemma substVars_cons_step (f : List Char → List Char) (c : Char)
    (cs : List Char) :
    substVars f (c :: cs) =
      if c = lbrace ∧ cs.take 1 = [lbrace] then
        (parseVar (cs.drop 1)).elim (c :: substVars f cs)
          (fun pr => f pr.1 ++ substVars f pr.2)
      else c :: substVars f cs := by
  show substVarsF f (cs.length + 1) (c :: cs) = _
  simp only [substVarsF]
  by_cases hc : c = lbrace ∧ cs.take 1 = [lbrace]
  · rw [if_pos hc, if_pos hc]
    cases hp : parseVar (cs.drop 1) with
    | none => rfl
    | some pr =>
      have hlen := parseVar_some_len hp
      simp only [Option.elim, List.append_cancel_left_eq]
      exact substVarsF_congr f cs.length pr.2.length pr.2
        (by simp at hlen ⊢; omega) le_rfl
  · rw [if_neg hc, if_neg hc]
    rfl

lemma substVars_nil (f : List Char → List Char) : substVars f [] = [] := rfl

lemma substVars_cons_other (f : List Char → List Char) {c : Char}
    {cs : List Char} (h : ¬(c = lbrace ∧ cs.take 1 = [lbrace])) :
    substVars f (c :: cs) = c :: substVars f cs := by
  rw [substVars_cons_step, if_neg h]

lemma substVars_braces_match (f : List Char → List Char)
    {rest tok rem : List Char} (hp : parseVar rest = some (tok, rem)) :
    substVars f (lbrace :: lbrace :: rest) = f tok ++ substVars f rem := by
  rw [substVars_cons_step, if_pos (by simp)]
  simp [hp, Option.elim]

lemma substVars_braces_nomatch (f : List Char → List Char)
    {rest : List Char} (hp : parseVar rest = none) :
    substVars f (lbrace :: lbrace :: rest) =
      lbrace :: substVars f (lbrace :: rest) := by
  rw [substVars_cons_step, if_pos (by simp)]
  simp [hp, Option.elim]

lemma substVars_no_lbrace (f : List Char → List Char) {s : List Char}
    (h : ∀ c ∈ s, c ≠ lbrace) : substVars f s = s := by
  induction s with
  | nil => rfl
  | cons c cs ih =>
    have hc : c ≠ lbrace := h c (by simp)
    rw [substVars_cons_other f (by simp [hc])]
    rw [ih (fun d hd => h d (by simp [hd]))]

lemma substVars_single_token (f : List Char → List Char) {x : List Char}
    (hx : x ≠ []) (hall : ∀ c ∈ x, isVarChar c = true) :
    substVars f (varTokenLit x) = f x := by
  show substVars f (lbrace :: lbrace :: (x ++ [rbrace, rbrace])) = f x
  rw [substVars_braces_match f (parseVar_token hx hall), substVars_nil,
    List.append_nil]

/-! Lookup-map lemmas. -/

lemma foldl_mapSet_not_mem (entries : List (List Char × List Char))
    (m : List Char → Option (List Char)) (n : List Char)
    (h : ∀ e ∈ entries, e.1 ≠ n) :
    entries.foldl mapSet m n = m n := by
  induction entries generalizing m with
  | nil => rfl
  | cons e es ih =>
    rw [List.foldl_cons, ih _ (fun x hx => h x (List.mem_cons_of_mem e hx))]
    have hne : n ≠ e.1 := fun hn => h e (by simp) hn.symm
    simp [mapSet, hne]

lemma foldl_mapSet_last (l1 l2 : List (List Char × List Char))
    (m : List Char → Option (List Char)) (n v : List Char)
    (h : ∀ e ∈ l2, e.1 ≠ n) :
    (l1 ++ (n, v) :: l2).foldl mapSet m n = some v := by
  rw [List.foldl_append, List.foldl_cons, foldl_mapSet_not_mem _ _ _ h]
  simp [mapSet]

lemma foldl_mapSet_mem (entries : List (List Char × List Char))
    (m : List Char → Option (List Char)) (n v : List Char)
    (h : entries.foldl mapSet m n = some v) :
    (n, v) ∈ entries ∨ m n = some v := by
  induction entries generalizing m with
  | nil => exact Or.inr h
  | cons e es ih =>
    rw [List.foldl_cons] at h
    rcases ih _ h with hmem | hbase
    · exact Or.inl (List.mem_cons_of_mem e hmem)
    · by_cases hn : n = e.1
      · left
        have hv : e.2 = v := by
          simp only [mapSet, if_pos hn] at hbase
          exact Option.some.inj hbase
        have he : e = (n, v) := by
          rw [← hv, hn]
        rw [← he]
        simp
      · right
        simpa only [mapSet, if_neg hn] using hbase

lemma filter_eq_singleton_decomp {α : Type} (p : α → Bool) (l : List α)
    (a : α) (h : l.filter p = [a]) :
    ∃ l1 l2, l = l1 ++ a :: l2 ∧ (∀ b ∈ l1, p b = false) ∧
      (∀ b ∈ l2, p b = false) ∧ p a = true := by
  induction l with
  | nil => simp at h
  | cons x xs ih =>
    by_cases hx : p x
    · rw [List.filter_cons_of_pos hx] at h
      have hxa : x = a := (List.cons.inj h).1
      have hnil : xs.filter p = [] := (List.cons.inj h).2
      refine ⟨[], xs, by rw [hxa]; rfl, by simp, ?_, hxa ▸ hx⟩
      intro b hb
      by_contra hpb
      have : b ∈ xs.filter p := List.mem_filter.mpr ⟨hb, by simpa using hpb⟩
      rw [hnil] at this
      simp at this
    · rw [List.filter_cons_of_neg hx] at h
      rcases ih h with ⟨l1, l2, rfl, h1, h2, hp⟩
      exact ⟨x :: l1, l2, rfl, by
        intro b hb
        rcases List.mem_cons.mp hb with rfl | hb
        · simpa using hx
        · exact h1 b hb, h2, hp⟩

lemma dynamicEntries_keys {env : DynEnv} :
    ∀ e ∈ dynamicEntries env, e.1 ∈ dynamicNames := by
  intro e he
  simp only [dynamicEntries, List.mem_cons, List.not_mem_nil, or_false] at he
  rcases he with rfl | rfl | rfl | rfl | rfl | rfl | rfl | rfl | rfl | rfl <;>
    simp [dynamicNames]

lemma varMapOf_user {vars : List CachedVariable} {env : DynEnv}
    {x A : List Char} {wid : Option (List Char)}
    (hu : vars.filter (fun v => decide (v.scope = Scope.USER ∧ v.name = x)) =
      [⟨x, A, Scope.USER, wid⟩])
    (hdyn : x ∉ dynamicNames) :
    varMapOf vars env x = some A := by
  rcases filter_eq_singleton_decomp _ _ _ hu with ⟨l1, l2, hl, h1, h2, _⟩
  have huser : userEntries vars =
      userEntries l1 ++ (x, A) :: userEntries l2 := by
    rw [userEntries, hl, List.filter_append, List.filter_cons_of_pos (by simp),
      List.map_append, List.map_cons]
    rfl
  rw [varMapOf, huser]
  have hassoc : wsEntries vars ++
      (userEntries l1 ++ (x, A) :: userEntries l2) ++ dynamicEntries env =
      (wsEntries vars ++ userEntries l1) ++
        (x, A) :: (userEntries l2 ++ dynamicEntries env) := by
    simp [List.append_assoc]
  rw [hassoc]
  apply foldl_mapSet_last
  intro e he
  rcases List.mem_append.mp he with he | he
  · rcases List.mem_map.mp he with ⟨v, hv, rfl⟩
    have hvmem := List.mem_filter.mp hv
    have hfalse := h2 v hvmem.1
    have hscope : v.scope = Scope.USER := by
      have := hvmem.2
      simp only [decide_eq_true_eq] at this
      exact this
    intro hname
    have hname2 : v.name = x := hname
    have : decide (v.scope = Scope.USER ∧ v.name = x) = true := by
      simp [hscope, hname2]
    rw [hfalse] at this
    simp at this
  · have := dynamicEntries_keys e he
    intro hx
    exact hdyn (hx ▸ this)

lemma varMapOf_ws {vars : List CachedVariable} {env : DynEnv}
    {x B : List Char} {wid : Option (List Char)}
    (hw : vars.filter
        (fun v => decide (v.scope = Scope.WORKSPACE ∧ v.name = x)) =
      [⟨x, B, Scope.WORKSPACE, wid⟩])
    (hnouser : ∀ v ∈ vars, v.scope = Scope.USER → v.name ≠ x)
    (hdyn : x ∉ dynamicNames) :
    varMapOf vars env x = some B := by
  rcases filter_eq_singleton_decomp _ _ _ hw with ⟨l1, l2, hl, h1, h2, _⟩
  have hws : wsEntries vars = wsEntries l1 ++ (x, B) :: wsEntries l2 := by
    rw [wsEntries, hl, List.filter_append, List.filter_cons_of_pos (by simp),
      List.map_append, List.map_cons]
    rfl
  rw [varMapOf, hws]
  have hassoc : (wsEntries l1 ++ (x, B) :: wsEntries l2) ++
      userEntries vars ++ dynamicEntries env =
      wsEntries l1 ++
        (x, B) :: (wsEntries l2 ++ userEntries vars ++ dynamicEntries env) := by
    simp [List.append_assoc]
  rw [hassoc]
  apply foldl_mapSet_last
  intro e he
  rcases List.mem_append.mp (by
      simpa only [List.append_assoc] using he) with he | he
  · rcases List.mem_map.mp he with ⟨v, hv, rfl⟩
    have hvmem := List.mem_filter.mp hv
    have hfalse := h2 v hvmem.1
    have hscope : v.scope = Scope.WORKSPACE := by
      have := hvmem.2
      simp only [decide_eq_true_eq] at this
      exact this
    intro hname
    have hname2 : v.name = x := hname
    have : decide (v.scope = Scope.WORKSPACE ∧ v.name = x) = true := by
      simp [hscope, hname2]
    rw [hfalse] at this
    simp at this
  · rcases List.mem_append.mp he with he | he
    · rcases List.mem_map.mp he with ⟨v, hv, rfl⟩
      have hvmem := List.mem_filter.mp hv
      have hscope : v.scope = Scope.USER := by
        have := hvmem.2
        simp only [decide_eq_true_eq] at this
        exact this
      exact hnouser v (hl ▸ hvmem.1) hscope
    · have := dynamicEntries_keys e he
      intro hx
      exact hdyn (hx ▸ this)

lemma varMapOf_dyn {vars : List CachedVariable} {env : DynEnv} :
    ∀ e ∈ dynamicEntries env, varMapOf vars env e.1 = some e.2 := by
  intro e he
  have hnodup : (dynamicEntries env).map Prod.fst = dynamicNames := by
    simp [dynamicEntries, dynamicNames]
  rcases List.append_of_mem he with ⟨d1, d2, hd⟩
  have hkeys : (dynamicNames : List (List Char)).Nodup := by decide
  have hmap : ((d1 ++ e :: d2).map Prod.fst).Nodup := by
    rw [← hd, hnodup]
    exact hkeys
  rw [List.map_append, List.map_cons] at hmap
  have htail : e.1 ∉ d2.map Prod.fst :=
    (List.nodup_cons.mp (hmap.of_append_right)).1
  rw [varMapOf, hd]
  have hassoc : wsEntries vars ++ userEntries vars ++ (d1 ++ e :: d2) =
      (wsEntries vars ++ userEntries vars ++ d1) ++ e :: d2 := by
    simp [List.append_assoc]
  rw [hassoc]
  have he2 : e = (e.1, e.2) := rfl
  rw [he2]
  apply foldl_mapSet_last
  intro b hb hb1
  exact htail (hb1 ▸ List.mem_map_of_mem Prod.fst hb)

lemma varMapOf_none {vars : List CachedVariable} {env : DynEnv}
    {x : List Char} (hstatic : ∀ v ∈ vars, v.name ≠ x)
    (hdyn : x ∉ dynamicNames) :
    varMapOf vars env x = none := by
  rw [varMapOf]
  apply foldl_mapSet_not_mem
  intro e he
  rcases List.mem_append.mp (by
      simpa only [List.append_assoc] using he) with he | he
  · rcases List.mem_map.mp he with ⟨v, hv, rfl⟩
    exact hstatic v (List.mem_filter.mp hv).1
  · rcases List.mem_append.mp he with he | he
    · rcases List.mem_map.mp he with ⟨v, hv, rfl⟩
      exact hstatic v (List.mem_filter.mp hv).1
    · have := dynamicEntries_keys e he
      intro hx
      exact hdyn (hx ▸ this)

lemma varMapOf_values {vars : List CachedVariable} {env : DynEnv}
    {x v : List Char} (h : varMapOf vars env x = some v) :
    (∃ cv ∈ vars, cv.value = v) ∨ ∃ e ∈ dynamicEntries env, e.2 = v := by
  rcases foldl_mapSet_mem _ _ _ _ h with hmem | hbase
  · rcases List.mem_append.mp (by
        simpa only [List.append_assoc] using hmem) with hm | hm
    · rcases List.mem_map.mp hm with ⟨cv, hcv, hpair⟩
      exact Or.inl ⟨cv, (List.mem_filter.mp hcv).1,
        congrArg Prod.snd hpair⟩
    · rcases List.mem_append.mp hm with hm | hm
      · rcases List.mem_map.mp hm with ⟨cv, hcv, hpair⟩
        exact Or.inl ⟨cv, (List.mem_filter.mp hcv).1,
          congrArg Prod.snd hpair⟩
      · exact Or.inr ⟨(x, v), hm, rfl⟩
  · simp at hbase

/-! Escaping and token-resolution lemmas. -/

lemma replaceAllChar_append (c : Char) (r a b : List Char) :
    replaceAllChar c r (a ++ b) = replaceAllChar c r a ++ replaceAllChar c r b := by
  induction a with
  | nil => rfl
  | cons x xs ih => simp [replaceAllChar, ih]

lemma escapeHtml_cons (x : Char) (xs : List Char) :
    escapeHtml (x :: xs) = htmlEscapeChar x ++ escapeHtml xs := by
  have expand : escapeHtml (x :: xs) =
      replaceAllChar '\"' "&quot;".data (replaceAllChar '>' "&gt;".data
        (replaceAllChar '<' "&lt;".data
          ((if x = '&' then "&amp;".data else [x]) ++
            replaceAllChar '&' "&amp;".data xs))) := rfl
  rw [expand, replaceAllChar_append, replaceAllChar_append,
    replaceAllChar_append]
  have htail : replaceAllChar '\"' "&quot;".data
      (replaceAllChar '>' "&gt;".data (replaceAllChar '<' "&lt;".data
        (replaceAllChar '&' "&amp;".data xs))) = escapeHtml xs := rfl
  rw [htail]
  congr 1
  by_cases h1 : x = '&'
  · subst h1; decide
  · by_cases h2 : x = '<'
    · subst h2; decide
    · by_cases h3 : x = '>'
      · subst h3; decide
      · by_cases h4 : x = '\"'
        · subst h4; decide
        · simp [h1, replaceAllChar, h2, h3, h4, htmlEscapeChar]

lemma escapeHtml_eq_htmlEscaped (s : List Char) :
    escapeHtml s = htmlEscaped s := by
  induction s with
  | nil => rfl
  | cons x xs ih => rw [escapeHtml_cons, ih, htmlEscaped]

lemma resolveToken_known {vars : List CachedVariable} {env : DynEnv}
    {m : Bool} {clip tok v : List Char} (hc : tok ≠ cursorName)
    (hcl : tok ≠ clipboardName) (h : varMapOf vars env tok = some v) :
    resolveToken vars env m clip tok = if m then escapeHtml v else v := by
  simp [resolveToken, hc, hcl, h]

lemma resolveToken_unknown {vars : List CachedVariable} {env : DynEnv}
    {m : Bool} {clip tok : List Char} (hc : tok ≠ cursorName)
    (hcl : tok ≠ clipboardName) (h : varMapOf vars env tok = none) :
    resolveToken vars env m clip tok = varTokenLit tok := by
  simp [resolveToken, hc, hcl, h]

lemma resolveToken_clipboard (vars : List CachedVariable) (env : DynEnv)
    (m : Bool) (clip : List Char) :
    resolveToken vars env m clip clipboardName =
      if m then escapeHtml clip else clip := by
  have h : clipboardName ≠ cursorName := by decide
  simp [resolveToken, h]

lemma apply_single_token (vars : List CachedVariable) (env : DynEnv)
    (m : Bool) (clip : List Char) {x : List Char} (hx : x ≠ [])
    (hall : ∀ c ∈ x, isVarChar c = true) :
    applyStaticAndDynamic vars env (varTokenLit x) m clip =
      resolveToken vars env m clip x :=
  substVars_single_token _ hx hall

lemma dynamicNames_wf : ∀ nm ∈ dynamicNames, nm ≠ [] ∧
    (∀ c ∈ nm, isVarChar c = true) ∧ nm ≠ cursorName ∧
    nm ≠ clipboardName := by decide

lemma parseVar_badToken {x : List Char}
    (hbad : ∃ c ∈ x, isVarChar c = false) (hnrb : ∀ c ∈ x, c ≠ rbrace) :
    parseVar (x ++ [rbrace, rbrace]) = none := by
  rcases takeWhile_append_stop [rbrace, rbrace] hbad
    with ⟨ht, hd⟩
  have hne : x.dropWhile isVarChar ≠ [] := by
    intro h0
    have hall : x.takeWhile isVarChar = x := by
      have hsp := List.takeWhile_append_dropWhile isVarChar x
      rw [h0, List.append_nil] at hsp
      exact hsp
    rcases hbad with ⟨c, hc, hpc⟩
    rw [← hall] at hc
    have := List.mem_takeWhile_imp hc
    rw [hpc] at this
    simp at this
  obtain ⟨d, ds, hds⟩ := List.exists_cons_of_ne_nil hne
  have hdx : d ∈ x := mem_dropWhile_mem x (hds ▸ List.mem_cons_self d ds)
  have hdrb : d ≠ rbrace := hnrb d hdx
  have he : parseVar (x ++ [rbrace, rbrace]) =
      if (x ++ [rbrace, rbrace]).takeWhile isVarChar = [] then none
      else if ((x ++ [rbrace, rbrace]).dropWhile isVarChar).take 2 =
          [rbrace, rbrace] then
        some ((x ++ [rbrace, rbrace]).takeWhile isVarChar,
          ((x ++ [rbrace, rbrace]).dropWhile isVarChar).drop 2)
      else none := rfl
  rw [he, ht, hd, hds, List.cons_append]
  by_cases h1 : x.takeWhile isVarChar = []
  · rw [if_pos h1]
  · rw [if_neg h1]
    have hne2 : ¬((d :: (ds ++ [rbrace, rbrace])).take 2 =
        [rbrace, rbrace]) := by
      rw [List.take_succ_cons]
      intro hcontra
      exact hdrb (List.cons.inj hcontra).1
    rw [if_neg hne2]

lemma substVars_badToken (f : List Char → List Char) {x : List Char}
    (hbad : ∃ c ∈ x, isVarChar c = false)
    (hnb : ∀ c ∈ x, c ≠ lbrace ∧ c ≠ rbrace) :
    substVars f (varTokenLit x) = varTokenLit x := by
  have hx : x ≠ [] := by
    rcases hbad with ⟨c, hc, _⟩
    intro h0
    subst h0
    simp at hc
  have hpv : parseVar (x ++ [rbrace, rbrace]) = none :=
    parseVar_badToken hbad (fun c hc => (hnb c hc).2)
  show substVars f (lbrace :: lbrace :: (x ++ [rbrace, rbrace])) =
    lbrace :: lbrace :: (x ++ [rbrace, rbrace])
  rw [substVars_braces_nomatch f hpv]
  congr 1
  cases x with
  | nil => exact absurd rfl hx
  | cons x0 xt =>
    have hx0 : x0 ≠ lbrace := (hnb x0 (by simp)).1
    rw [List.cons_append, substVars_cons_other f (by simp [hx0])]
    congr 1
    apply substVars_no_lbrace
    intro c hc
    rcases List.mem_cons.mp hc with rfl | hc
    · exact hx0
    · rcases List.mem_append.mp hc with hc | hc
      · exact (hnb c (List.mem_cons_of_mem x0 hc)).1
      · have hcrb : c = rbrace := by simpa using hc
        rw [hcrb]
        decide

lemma startsWith_iff (pat : List Char) :
    ∀ s, startsWithChars pat s = true ↔ ∃ t, s = pat ++ t := by
  induction pat with
  | nil =>
    intro s
    constructor
    · intro _; exact ⟨s, rfl⟩
    · intro _; rfl
  | cons p ps ih =>
    intro s
    cases s with
    | nil =>
      constructor
      · intro h; simp [startsWithChars] at h
      · rintro ⟨t, ht⟩; simp at ht
    | cons c cs =>
      constructor
      · intro h
        rw [startsWithChars, Bool.and_eq_true] at h
        have hpc : p = c := by
          have := h.1
          simpa using this
        rcases (ih cs).mp h.2 with ⟨t, rfl⟩
        exact ⟨t, by rw [hpc, List.cons_append]⟩
      · rintro ⟨t, ht⟩
        rw [List.cons_append] at ht
        have hpc : c = p := (List.cons.inj ht).1
        have hcs : cs = ps ++ t := (List.cons.inj ht).2
        rw [startsWithChars, Bool.and_eq_true]
        exact ⟨by simp [hpc], (ih cs).mpr ⟨t, hcs⟩⟩

lemma hasSub_iff (pat : List Char) :
    ∀ s, hasSub pat s = true ↔ ∃ pre post, s = pre ++ pat ++ post := by
  intro s
  induction s with
  | nil =>
    rw [hasSub, startsWith_iff]
    constructor
    · rintro ⟨t, ht⟩
      exact ⟨[], t, ht⟩
    · rintro ⟨pre, post, hp⟩
      have h1 : pre = [] := by
        cases pre with
        | nil => rfl
        | cons a b => simp at hp
      subst h1
      exact ⟨post, by simpa using hp⟩
  | cons c cs ih =>
    rw [hasSub, Bool.or_eq_true, startsWith_iff, ih]
    constructor
    · rintro (⟨t, ht⟩ | ⟨pre, post, hp⟩)
      · exact ⟨[], t, by simpa using ht⟩
      · exact ⟨c :: pre, post, by rw [hp]; rfl⟩
    · rintro ⟨pre, post, hp⟩
      cases pre with
      | nil =>
        left
        exact ⟨post, by simpa using hp⟩
      | cons a pre2 =>
        right
        rw [List.cons_append, List.cons_append] at hp
        exact ⟨pre2, post, (List.cons.inj hp).2⟩

/-! Claim theorems: variable resolution. -/

/-- Claim C3: variable precedence.  For a name defined at several levels the
highest-precedence definition wins: a user-scoped static variable shadows
same-named workspace entries (resolving the token yields the user value); a
workspace value is used when no user entry shares the name; and every
dynamic date/time variable always wins over any same-named static variable,
whatever the cache contains. -/
theorem claim_C3 (env : DynEnv) (clip x A B : List Char)
    (widU widW : Option (List Char)) (hx : x ≠ [])
    (hall : ∀ c ∈ x, isVarChar c = true) (hdyn : x ∉ dynamicNames)
    (hcur : x ≠ cursorName) (hclip : x ≠ clipboardName) :
    (∀ vars : List CachedVariable,
      vars.filter (fun v => decide (v.scope = Scope.USER ∧ v.name = x)) =
          [⟨x, A, Scope.USER, widU⟩] →
        applyStaticAndDynamic vars env (varTokenLit x) false clip = A) ∧
    (∀ vars : List CachedVariable,
      vars.filter
          (fun v => decide (v.scope = Scope.WORKSPACE ∧ v.name = x)) =
          [⟨x, B, Scope.WORKSPACE, widW⟩] →
        (∀ v ∈ vars, v.scope = Scope.USER → v.name ≠ x) →
        applyStaticAndDynamic vars env (varTokenLit x) false clip = B) ∧
    (∀ vars : List CachedVariable, ∀ e ∈ dynamicEntries env,
      applyStaticAndDynamic vars env (varTokenLit e.1) false clip = e.2) := by
  refine ⟨?_, ?_, ?_⟩
  · intro vars hu
    rw [apply_single_token _ _ _ _ hx hall,
      resolveToken_known hcur hclip (varMapOf_user hu hdyn)]
    simp
  · intro vars hw hnouser
    rw [apply_single_token _ _ _ _ hx hall,
      resolveToken_known hcur hclip (varMapOf_ws hw hnouser hdyn)]
    simp
  · intro vars e he
    obtain ⟨h1, h2, h3, h4⟩ := dynamicNames_wf e.1 (dynamicEntries_keys e he)
    rw [apply_single_token _ _ _ _ h1 h2,
      resolveToken_known h3 h4 (varMapOf_dyn e he)]
    simp

/-- Closed instance of C3: USER x=A beats WORKSPACE x=B; WORKSPACE alone
resolves; a USER static named year is shadowed by the dynamic year. -/
theorem claim_C3_witness :
    applyStaticAndDynamic
        [⟨['x'], ['A'], Scope.USER, none⟩,
         ⟨['x'], ['B'], Scope.WORKSPACE, none⟩]
        testEnv (varTokenLit ['x']) false [] = ['A'] ∧
    applyStaticAndDynamic [⟨['x'], ['B'], Scope.WORKSPACE, none⟩]
        testEnv (varTokenLit ['x']) false [] = ['B'] ∧
    applyStaticAndDynamic [⟨yearName, "1999".data, Scope.USER, none⟩]
        testEnv (varTokenLit yearName) false [] = "Y".data := by
  have h := claim_C3 testEnv [] ['x'] ['A'] ['B'] none none (by decide)
    (by decide) (by decide) (by decide) (by decide)
  exact ⟨h.1 _ (by decide), h.2.1 _ (by decide) (by decide),
    h.2.2 [⟨yearName, "1999".data, Scope.USER, none⟩] (yearName, "Y".data)
      (by decide)⟩

/-- Claim C7: HTML-mode substitution escapes substituted values for the four
HTML-special characters (escapeHtml acts as the per-character escaping
htmlEscaped of ampersand, angle brackets and double quote), and plain-mode
substitution inserts the value verbatim, for static and dynamic map values
and for the clipboard value alike. -/
theorem claim_C7 (vars : List CachedVariable) (env : DynEnv)
    (clip : List Char) :
    (∀ s, escapeHtml s = htmlEscaped s) ∧
    (∀ tok v, tok ≠ cursorName → tok ≠ clipboardName →
      varMapOf vars env tok = some v →
      resolveToken vars env true clip tok = escapeHtml v ∧
        resolveToken vars env false clip tok = v) ∧
    (resolveToken vars env true clip clipboardName = escapeHtml clip ∧
      resolveToken vars env false clip clipboardName = clip) := by
  refine ⟨escapeHtml_eq_htmlEscaped, ?_, ?_, ?_⟩
  · intro tok v hc hcl h
    exact ⟨by rw [resolveToken_known hc hcl h]; simp, by
      rw [resolveToken_known hc hcl h]; simp⟩
  · rw [resolveToken_clipboard]
    simp
  · rw [resolveToken_clipboard]
    simp

/-- Closed instance of C7: a static value containing a special character is
escaped in HTML mode and verbatim in plain mode, as is the clipboard. -/
theorem claim_C7_witness :
    resolveToken [⟨['g'], "a<b".data, Scope.USER, none⟩] testEnv true []
        ['g'] = escapeHtml "a<b".data ∧
    resolveToken [⟨['g'], "a<b".data, Scope.USER, none⟩] testEnv false []
        ['g'] = "a<b".data ∧
    resolveToken [] testEnv true "x&y".data clipboardName =
        escapeHtml "x&y".data ∧
    resolveToken [] testEnv false "x&y".data clipboardName = "x&y".data := by
  have h := claim_C7 [⟨['g'], "a<b".data, Scope.USER, none⟩] testEnv []
  have h2 := claim_C7 [] testEnv "x&y".data
  have hk := h.2.1 ['g'] "a<b".data (by decide) (by decide) (by decide)
  exact ⟨hk.1, hk.2, h2.2.2.1, h2.2.2.2⟩

/-- Claim C9: unknown-token passthrough.  A token that names no cached
static variable, no dynamic variable, and is neither cursor nor clipboard
resolves to itself: the literal token text is left unchanged. -/
theorem claim_C9 (vars : List CachedVariable) (env : DynEnv) (m : Bool)
    (clip x : List Char) (hx : x ≠ [])
    (hall : ∀ c ∈ x, isVarChar c = true) (hcur : x ≠ cursorName)
    (hclip : x ≠ clipboardName) (hstatic : ∀ v ∈ vars, v.name ≠ x)
    (hdyn : x ∉ dynamicNames) :
    resolveToken vars env m clip x = varTokenLit x ∧
    applyStaticAndDynamic vars env (varTokenLit x) m clip =
      varTokenLit x := by
  have h1 := @resolveToken_unknown vars env m clip x hcur hclip
    (@varMapOf_none vars env x hstatic hdyn)
  exact ⟨h1, by rw [apply_single_token _ _ _ _ hx hall, h1]⟩

/-- Closed instance of C9: resolving the notavariable token changes
nothing. -/
theorem claim_C9_witness :
    applyStaticAndDynamic [] testEnv (varTokenLit "notavariable".data)
      false [] = varTokenLit "notavariable".data :=
  (claim_C9 [] testEnv false [] "notavariable".data (by decide) (by decide)
    (by decide) (by decide) (by decide) (by decide)).2

/-- Claim C10: token-syntax restriction.  A braced occurrence whose inner
text contains any character outside letters, digits and underscore is never
substituted and stays verbatim, even when a cached static variable with
exactly that name exists. -/
theorem claim_C10 (vars : List CachedVariable) (env : DynEnv) (m : Bool)
    (clip x vv : List Char) (sc : Scope) (wid : Option (List Char))
    (hmem : (⟨x, vv, sc, wid⟩ : CachedVariable) ∈ vars)
    (hbad : ∃ c ∈ x, isVarChar c = false)
    (hnb : ∀ c ∈ x, c ≠ lbrace ∧ c ≠ rbrace) :
    applyStaticAndDynamic vars env (varTokenLit x) m clip = varTokenLit x :=
  substVars_badToken _ hbad hnb

/-- Closed instance of C10: a hyphenated name is cached yet its token is
left verbatim. -/
theorem claim_C10_witness :
    applyStaticAndDynamic [⟨"my-var".data, ['V'], Scope.USER, none⟩]
      testEnv (varTokenLit "my-var".data) false [] =
      varTokenLit "my-var".data :=
  claim_C10 [⟨"my-var".data, ['V'], Scope.USER, none⟩] testEnv false []
    "my-var".data ['V'] Scope.USER none (by decide) (by decide) (by decide)

/-- Claim C6: clipboard gating and fallback.  The clipboard read is needed
exactly when the literal clipboard token occurs in the plain content or in
the present HTML content; when the read fails the substituted clipboard
text is the empty string, and every clipboard token resolves to the empty
string in both modes (the resolution functions are total, so no error is
raised). -/
theorem claim_C6 (vars : List CachedVariable) (env : DynEnv) :
    (∀ content h, clipboardNeeded content h = true ↔
      ((∃ pre post, content = pre ++ clipboardTokenLit ++ post) ∨
        ∃ hh, h = some hh ∧
          ∃ pre post, hh = pre ++ clipboardTokenLit ++ post)) ∧
    (∀ content h, clipboardTextResolved content h none = []) ∧
    (∀ m : Bool, resolveToken vars env m [] clipboardName = []) ∧
    (∀ m : Bool,
      applyStaticAndDynamic vars env (varTokenLit clipboardName) m [] =
        []) := by
  refine ⟨?_, ?_, ?_, ?_⟩
  · intro content h
    cases h with
    | none => simp [clipboardNeeded, hasSub_iff, Option.elim]
    | some hh => simp [clipboardNeeded, hasSub_iff, Option.elim]
  · intro content h
    simp [clipboardTextResolved]
  · intro m
    rw [resolveToken_clipboard]
    cases m <;> rfl
  · intro m
    rw [apply_single_token _ _ _ _ (by decide) (by decide),
      resolveToken_clipboard]
    cases m <;> rfl

/-! Trigger-extraction lemmas and the Tab-handler claim. -/

lemma extract_eq (s : List Char) : extractTrailingShortcut s =
    if s.reverse.takeWhile isShortcutChar = [] then none
    else if (s.reverse.drop
        (s.reverse.takeWhile isShortcutChar).length).take 2 = ['/', '/'] then
      some ('/' :: '/' :: (s.reverse.takeWhile isShortcutChar).reverse,
        '/' :: (s.reverse.takeWhile isShortcutChar).reverse)
    else none := rfl

lemma extract_pos {P T : List Char} (hT : T ≠ [])
    (hall : ∀ c ∈ T, isShortcutChar c = true) :
    extractTrailingShortcut (P ++ '/' :: '/' :: T) =
      some ('/' :: '/' :: T, '/' :: T) := by
  have hslash : isShortcutChar '/' = false := by decide
  have hrev : (P ++ '/' :: '/' :: T).reverse =
      T.reverse ++ '/' :: '/' :: P.reverse := by
    rw [List.reverse_append]
    simp
  have hallrev : ∀ c ∈ T.reverse, isShortcutChar c = true := fun c hc =>
    hall c (List.mem_reverse.mp hc)
  have htw : (T.reverse ++ '/' :: '/' :: P.reverse).takeWhile isShortcutChar
      = T.reverse := by
    rw [takeWhile_append_all _ hallrev, List.takeWhile_cons]
    simp [hslash]
  have hTrev : T.reverse ≠ [] := by simpa using hT
  have hdrop : (T.reverse ++ '/' :: '/' :: P.reverse).drop T.reverse.length
      = '/' :: '/' :: P.reverse := List.drop_left _ _
  rw [extract_eq, hrev, htw, if_neg hTrev, hdrop]
  rw [if_pos (show List.take 2 ('/' :: '/' :: P.reverse) = ['/', '/'] from
    rfl), List.reverse_reverse]

lemma extract_some_dest {S : List Char} {pr : List Char × List Char}
    (h : extractTrailingShortcut S = some pr) :
    ∃ P T, T ≠ [] ∧ (∀ c ∈ T, isShortcutChar c = true) ∧
      S = P ++ '/' :: '/' :: T ∧ pr = ('/' :: '/' :: T, '/' :: T) := by
  rw [extract_eq] at h
  by_cases h1 : S.reverse.takeWhile isShortcutChar = []
  · rw [if_pos h1] at h
    exact absurd h (by simp)
  · rw [if_neg h1] at h
    by_cases h2 : (S.reverse.drop
        (S.reverse.takeWhile isShortcutChar).length).take 2 = ['/', '/']
    · rw [if_pos h2] at h
      have hpr : pr = ('/' :: '/' ::
          (S.reverse.takeWhile isShortcutChar).reverse,
          '/' :: (S.reverse.takeWhile isShortcutChar).reverse) :=
        (Option.some.inj h).symm
      have hsplit : S.reverse = S.reverse.takeWhile isShortcutChar ++
          S.reverse.dropWhile isShortcutChar :=
        (List.takeWhile_append_dropWhile _ _).symm
      have hdrop : S.reverse.drop
          (S.reverse.takeWhile isShortcutChar).length =
          S.reverse.dropWhile isShortcutChar := by
        have hdl := List.drop_left (S.reverse.takeWhile isShortcutChar)
          (S.reverse.dropWhile isShortcutChar)
        rw [← hsplit] at hdl
        exact hdl
      rw [hdrop] at h2
      have hdw : S.reverse.dropWhile isShortcutChar =
          '/' :: '/' :: (S.reverse.dropWhile isShortcutChar).drop 2 := by
        conv_lhs =>
          rw [← List.take_append_drop 2 (S.reverse.dropWhile isShortcutChar)]
        rw [h2]
        rfl
      refine ⟨((S.reverse.dropWhile isShortcutChar).drop 2).reverse,
        (S.reverse.takeWhile isShortcutChar).reverse, by simpa using h1,
        ?_, ?_, hpr⟩
      · intro c hc
        exact List.mem_takeWhile_imp (List.mem_reverse.mp hc)
      · have hS : S.reverse = S.reverse.takeWhile isShortcutChar ++
            '/' :: '/' :: (S.reverse.dropWhile isShortcutChar).drop 2 := by
          rw [← hdw]
          exact hsplit
        set tw := S.reverse.takeWhile isShortcutChar with htw2
        set rest := (S.reverse.dropWhile isShortcutChar).drop 2 with hrest2
        apply List.reverse_injective
        rw [hS]
        simp [List.reverse_append, List.append_assoc]
    · rw [if_neg h2] at h
      exact absurd h (by simp)

/-- Claim C1: Tab-handler decision.  When the text before the cursor ends
in two slashes and a trigger word whose lookup form (single slash) is in
the shortcut cache and the extension context is live, the handler
suppresses the default Tab behavior and dispatches the lookup key; when the
lookup form is not cached, when no trailing trigger exists, or when the
context is stale, nothing is suppressed or dispatched. -/
theorem claim_C1 :
    (∀ P T known, T ≠ [] → (∀ c ∈ T, isShortcutChar c = true) →
      ('/' :: T) ∈ known →
      handleTab (P ++ '/' :: '/' :: T) known true =
        ⟨true, some ('/' :: T)⟩) ∧
    (∀ P T known ctx, T ≠ [] → (∀ c ∈ T, isShortcutChar c = true) →
      ('/' :: T) ∉ known →
      handleTab (P ++ '/' :: '/' :: T) known ctx = ⟨false, none⟩) ∧
    (∀ S known ctx,
      (∀ P T, T ≠ [] → (∀ c ∈ T, isShortcutChar c = true) →
        S ≠ P ++ '/' :: '/' :: T) →
      handleTab S known ctx = ⟨false, none⟩) ∧
    (∀ P T known, T ≠ [] → (∀ c ∈ T, isShortcutChar c = true) →
      handleTab (P ++ '/' :: '/' :: T) known false = ⟨false, none⟩) := by
  refine ⟨?_, ?_, ?_, ?_⟩
  · intro P T known hT hall hmem
    simp [handleTab, extract_pos hT hall, hmem]
  · intro P T known ctx hT hall hmem
    simp [handleTab, extract_pos hT hall, hmem]
  · intro S known ctx hno
    cases hext : extractTrailingShortcut S with
    | none => simp [handleTab, hext]
    | some pr =>
      rcases extract_some_dest hext with ⟨P, T, hT, hall, hS, _⟩
      exact absurd hS (hno P T hT hall)
  · intro P T known hT hall
    by_cases hmem : ('/' :: T) ∈ known <;>
      simp [handleTab, extract_pos hT hall, hmem]

/-- Closed instance of C1: cached trigger suppresses and dispatches; an
uncached trigger, a text with no trailing trigger, and a stale context do
not. -/
theorem claim_C1_witness :
    handleTab ['a', 'b', '/', '/', 's', 'i', 'g'] [['/', 's', 'i', 'g']]
        true = ⟨true, some ['/', 's', 'i', 'g']⟩ ∧
    handleTab ['a', 'b', '/', '/', 's', 'i', 'g'] [['/', 'z']] true =
        ⟨false, none⟩ ∧
    handleTab ['h', 'e', 'l', 'l', 'o'] [['/', 's', 'i', 'g']] true =
        ⟨false, none⟩ ∧
    handleTab ['a', 'b', '/', '/', 's', 'i', 'g'] [['/', 's', 'i', 'g']]
        false = ⟨false, none⟩ := by
  have h := claim_C1
  refine ⟨h.1 ['a', 'b'] ['s', 'i', 'g'] _ (by decide) (by decide)
      (by decide),
    h.2.1 ['a', 'b'] ['s', 'i', 'g'] _ true (by decide) (by decide)
      (by decide),
    h.2.2.1 ['h', 'e', 'l', 'l', 'o'] _ true ?_,
    h.2.2.2 ['a', 'b'] ['s', 'i', 'g'] _ (by decide) (by decide)⟩
  intro P T hT hall heq
  have hmem : '/' ∈ (['h', 'e', 'l', 'l', 'o'] : List Char) := by
    rw [heq]
    simp
  simp at hmem

/-! Sentinel-counting lemmas for the cursor round-trip. -/

lemma tokensOfF_nil (n : Nat) : tokensOfF n [] = [] := by
  cases n <;> simp [tokensOfF]

lemma count_substVarsF (f : List Char → List Char)
    (hf : ∀ tok, tok ≠ [] → (∀ c ∈ tok, isVarChar c = true) →
      ((f tok).count SENT = if tok = cursorName then 1 else 0)) :
    ∀ n s, s.length ≤ n → SENT ∉ s →
      (substVarsF f n s).count SENT = (tokensOfF n s).count cursorName := by
  intro n
  induction n with
  | zero =>
    intro s hn _
    have hs : s = [] := List.length_eq_zero.mp (Nat.le_zero.mp hn)
    subst hs
    simp [substVarsF_nil, tokensOfF_nil]
  | succ n ih =>
    intro s hn hs
    cases s with
    | nil => simp [substVarsF_nil, tokensOfF_nil]
    | cons c cs =>
      have hcs : SENT ∉ cs := fun h => hs (List.mem_cons_of_mem c h)
      have hcS : c ≠ SENT := fun h => hs (h ▸ List.mem_cons_self c cs)
      have hlencs : cs.length ≤ n := by
        simp only [List.length_cons] at hn
        omega
      simp only [substVarsF, tokensOfF]
      by_cases hc : c = lbrace ∧ cs.take 1 = [lbrace]
      · rw [if_pos hc, if_pos hc]
        cases hp : parseVar (cs.drop 1) with
        | none =>
          simp only [Option.elim, List.count_cons]
          rw [ih cs hlencs hcs]
          simp [hcS]
        | some pr =>
          obtain ⟨hne, hall, hdec⟩ := parseVar_some_dest
            (show parseVar (cs.drop 1) = some (pr.1, pr.2) from hp)
          have hrem : SENT ∉ pr.2 := by
            intro hmem
            apply hcs
            have hmem1 : SENT ∈ cs.drop 1 := by
              rw [hdec]
              simp [hmem]
            exact List.mem_of_mem_drop hmem1
          have hlen := parseVar_some_len
            (show parseVar (cs.drop 1) = some (pr.1, pr.2) from hp)
          have hlenrem : pr.2.length ≤ n := by
            have : (cs.drop 1).length = cs.length - 1 := by simp
            omega
          simp only [Option.elim, List.count_append, List.count_cons]
          rw [ih pr.2 hlenrem hrem, hf pr.1 hne hall]
          by_cases hcur : pr.1 = cursorName
          · simp only [hcur, if_pos]
            simp
            omega
          · simp [hcur]
      · rw [if_neg hc, if_neg hc]
        simp only [List.count_cons]
        rw [ih cs hlencs hcs]
        simp [hcS]

lemma count_substVars (f : List Char → List Char)
    (hf : ∀ tok, tok ≠ [] → (∀ c ∈ tok, isVarChar c = true) →
      ((f tok).count SENT = if tok = cursorName then 1 else 0))
    {s : List Char} (hs : SENT ∉ s) :
    (substVars f s).count SENT = (tokensOf s).count cursorName :=
  count_substVarsF f hf s.length s le_rfl hs

lemma resolveToken_count_SENT {vars : List CachedVariable} {env : DynEnv}
    {clip : List Char} (hclip : SENT ∉ clip)
    (hvals : ∀ v ∈ vars, SENT ∉ v.value)
    (henv : ∀ e ∈ dynamicEntries env, SENT ∉ e.2) :
    ∀ tok, tok ≠ [] → (∀ c ∈ tok, isVarChar c = true) →
      ((resolveToken vars env false clip tok).count SENT =
        if tok = cursorName then 1 else 0) := by
  intro tok hne hall
  by_cases hc : tok = cursorName
  · subst hc
    simp [resolveToken]
  · rw [if_neg hc]
    by_cases hcl : tok = clipboardName
    · subst hcl
      rw [resolveToken_clipboard]
      simpa using List.count_eq_zero.mpr hclip
    · cases hlook : varMapOf vars env tok with
      | some v =>
        rw [resolveToken_known hc hcl hlook]
        have hv : SENT ∉ v := by
          rcases varMapOf_values hlook with ⟨cv, hcv, rfl⟩ | ⟨e, he, rfl⟩
          · exact hvals cv hcv
          · exact henv e he
        simpa using List.count_eq_zero.mpr hv
      | none =>
        rw [resolveToken_unknown hc hcl hlook]
        apply List.count_eq_zero.mpr
        intro hmem
        rcases List.mem_cons.mp hmem with h1 | hmem
        · exact absurd h1 (by decide)
        rcases List.mem_cons.mp hmem with h1 | hmem
        · exact absurd h1 (by decide)
        rcases List.mem_append.mp hmem with hmem | hmem
        · have := hall SENT hmem
          exact absurd this (by decide)
        · rcases List.mem_cons.mp hmem with h1 | hmem
          · exact absurd h1 (by decide)
          · have : SENT = rbrace := by simpa using hmem
            exact absurd this (by decide)

lemma listIndexOf_decomp {a : Char} :
    ∀ {l : List Char}, a ∈ l →
      l.take (listIndexOf a l) ++ a :: l.drop (listIndexOf a l + 1) = l := by
  intro l
  induction l with
  | nil => intro h; simp at h
  | cons c cs ih =>
    intro h
    by_cases hca : c = a
    · subst hca
      simp [listIndexOf]
    · have ha : a ∈ cs := by
        rcases List.mem_cons.mp h with h2 | h2
        · exact absurd h2.symm hca
        · exact h2
      rw [listIndexOf, if_neg hca, List.take_succ_cons, List.cons_append]
      have hdrop : (c :: cs).drop (listIndexOf a cs + 1 + 1) =
          cs.drop (listIndexOf a cs + 1) := rfl
      rw [hdrop]
      rw [ih ha]

/-! The input-surface cursor round-trip and the contenteditable sentinel
walk. -/

lemma placeCursor_spec :
    ∀ nodes : List (List Char),
      (nodes.map (fun t => t.count SENT)).sum = 1 →
      ((placeCursorAfterSentinel nodes).1.map
          (fun t => t.count SENT)).sum = 0 ∧
      ∃ i, (placeCursorAfterSentinel nodes).2 =
          some (i, listIndexOf SENT (nodes.getD i [])) ∧
        SENT ∈ nodes.getD i [] := by
  intro nodes
  induction nodes with
  | nil => intro h; simp at h
  | cons t rest ih =>
    intro h
    rw [List.map_cons, List.sum_cons] at h
    by_cases ht : SENT ∈ t
    · have hdec := listIndexOf_decomp ht
      have hcnt := congrArg (fun l => l.count SENT) hdec
      simp only [List.count_append, List.count_cons_self] at hcnt
      have htpos : t.count SENT ≠ 0 :=
        fun h0 => (List.count_eq_zero.mp h0) ht
      have ht1 : t.count SENT = 1 ∧
          (rest.map (fun t => t.count SENT)).sum = 0 := by
        constructor <;> omega
      simp only [placeCursorAfterSentinel, if_pos ht]
      constructor
      · rw [List.map_cons, List.sum_cons, ht1.2, List.count_append]
        omega
      · refine ⟨0, ?_, ?_⟩
        · simp
        · simpa using ht
    · have ht0 : t.count SENT = 0 := List.count_eq_zero.mpr ht
      have hrest : (rest.map (fun t => t.count SENT)).sum = 1 := by omega
      rcases ih hrest with ⟨hsum, i, hcaret, hmem⟩
      simp only [placeCursorAfterSentinel, if_neg ht]
      refine ⟨?_, i + 1, ?_, by simpa using hmem⟩
      · rw [List.map_cons, List.sum_cons, ht0, hsum]
      · rw [hcaret]
        simp

/-- Claim C2: cursor-marker round trip.  With exactly one cursor token in
the snippet and no stray sentinel anywhere, plain resolution yields exactly
one sentinel; the input replace operation then leaves a surface with zero
sentinels and a collapsed caret at the index the sentinel occupied in the
freshly inserted value; and the contenteditable sentinel walk over the text
nodes likewise removes the single sentinel and collapses the selection onto
the offset it occupied. -/
theorem claim_C2 (vars : List CachedVariable) (env : DynEnv)
    (raw clip : List Char) (st : InputState) (shortcut : List Char)
    (execOk : Bool) (nodes : List (List Char))
    (hraw : SENT ∉ raw) (hclip : SENT ∉ clip)
    (hvals : ∀ v ∈ vars, SENT ∉ v.value)
    (henv : ∀ e ∈ dynamicEntries env, SENT ∉ e.2)
    (hone : (tokensOf raw).count cursorName = 1)
    (hval : SENT ∉ st.value)
    (hnodes : (nodes.map (fun t => t.count SENT)).sum = 1) :
    ((replaceInInput st shortcut
        (applyStaticAndDynamic vars env raw false clip) execOk).value.count
        SENT = 0 ∧
      (replaceInInput st shortcut
        (applyStaticAndDynamic vars env raw false clip) execOk).sel =
        some (listIndexOf SENT (insertedInputValue st shortcut
            (applyStaticAndDynamic vars env raw false clip)),
          listIndexOf SENT (insertedInputValue st shortcut
            (applyStaticAndDynamic vars env raw false clip))) ∧
      (insertedInputValue st shortcut
          (applyStaticAndDynamic vars env raw false clip)).take
          (listIndexOf SENT (insertedInputValue st shortcut
            (applyStaticAndDynamic vars env raw false clip))) ++
        SENT :: (insertedInputValue st shortcut
          (applyStaticAndDynamic vars env raw false clip)).drop
          (listIndexOf SENT (insertedInputValue st shortcut
            (applyStaticAndDynamic vars env raw false clip)) + 1) =
        insertedInputValue st shortcut
          (applyStaticAndDynamic vars env raw false clip)) ∧
    (((placeCursorAfterSentinel nodes).1.map
        (fun t => t.count SENT)).sum = 0 ∧
      ∃ i, (placeCursorAfterSentinel nodes).2 =
          some (i, listIndexOf SENT (nodes.getD i [])) ∧
        SENT ∈ nodes.getD i []) := by
  refine ⟨?_, placeCursor_spec nodes hnodes⟩
  have hcount : (applyStaticAndDynamic vars env raw false clip).count SENT
      = 1 := by
    rw [applyStaticAndDynamic,
      count_substVars _ (resolveToken_count_SENT hclip hvals henv) hraw,
      hone]
  set resolved := applyStaticAndDynamic vars env raw false clip with hres
  have hv0 : st.value.count SENT = 0 := List.count_eq_zero.mpr hval
  have hcount1 : (insertedInputValue st shortcut resolved).count SENT
      = 1 := by
    rw [insertedInputValue]
    simp only [List.count_append]
    have h1 : (st.value.take ((st.value.take
        ((st.sel.map Prod.fst).getD st.value.length)).length -
        shortcut.length)).count SENT = 0 := by
      have hsub := List.Sublist.count_le
        (List.take_sublist ((st.value.take
          ((st.sel.map Prod.fst).getD st.value.length)).length -
          shortcut.length) st.value) SENT
      omega
    have h2 : (st.value.drop
        ((st.sel.map Prod.fst).getD st.value.length)).count SENT = 0 := by
      have hsub := List.Sublist.count_le
        (List.drop_sublist ((st.sel.map Prod.fst).getD st.value.length)
          st.value) SENT
      omega
    omega
  have hmem1 : SENT ∈ insertedInputValue st shortcut resolved := by
    by_contra h0
    rw [List.count_eq_zero.mpr h0] at hcount1
    simp at hcount1
  have hvres : SENT ∈ resolved := by
    by_contra h0
    rw [List.count_eq_zero.mpr h0] at hcount
    simp at hcount
  have hfin : replaceInInput st shortcut resolved execOk =
      ⟨(insertedInputValue st shortcut resolved).take
          (listIndexOf SENT (insertedInputValue st shortcut resolved)) ++
        (insertedInputValue st shortcut resolved).drop
          (listIndexOf SENT (insertedInputValue st shortcut resolved) + 1),
        some (listIndexOf SENT (insertedInputValue st shortcut resolved),
          listIndexOf SENT (insertedInputValue st shortcut resolved))⟩ := by
    rw [replaceInInput]
    rw [if_pos hvres, if_pos hmem1]
  have hdec := listIndexOf_decomp hmem1
  refine ⟨?_, ?_, hdec⟩
  · rw [hfin]
    have hcnt := congrArg (fun l => l.count SENT) hdec
    simp only [List.count_append, List.count_cons_self] at hcnt
    simp only [List.count_append]
    omega
  · rw [hfin]

/-- Closed instance of C2: expanding the signature snippet in an input
holding the typed trigger leaves no sentinel, puts the caret at offset 6
(right before Jane), and the node walk clears its single sentinel. -/
theorem claim_C2_witness :
    (replaceInInput ⟨"//sig".data, some (5, 5)⟩ "//sig".data
        (applyStaticAndDynamic [] testEnv
          ("Best, ".data ++ varTokenLit cursorName ++ "Jane".data)
          false []) true).value.count SENT = 0 ∧
    (replaceInInput ⟨"//sig".data, some (5, 5)⟩ "//sig".data
        (applyStaticAndDynamic [] testEnv
          ("Best, ".data ++ varTokenLit cursorName ++ "Jane".data)
          false []) true).sel = some (6, 6) ∧
    ((placeCursorAfterSentinel [['a', SENT]]).1.map
        (fun t => t.count SENT)).sum = 0 := by
  have h := claim_C2 [] testEnv
    ("Best, ".data ++ varTokenLit cursorName ++ "Jane".data) []
    ⟨"//sig".data, some (5, 5)⟩ "//sig".data true [['a', SENT]]
    (by decide) (by decide) (by decide) (by decide) (by decide) (by decide)
    (by decide)
  refine ⟨h.1.1, ?_, h.2.1⟩
  rw [h.1.2.1]
  decide

/-! Background service: session invalidation and the TTL cache. -/

/-- Claim C4: a 401 during any background fetch clears the session.  The
shortcut fetch on 401 clears token, user and cache and returns the empty
list; a GET_SHORTCUTS round trip on a stale cache hitting a 401 leaves a
logged-out storage whose subsequent GET_STATUS reports loggedIn false and
shortcutCount 0; and an EXPAND_SHORTCUT hitting a 401 clears the session
and answers NOT_LOGGED_IN. -/
theorem claim_C4 (tk : List Char) (htk : tk ≠ [])
    (user apiUrl : Option (List Char))
    (sh0 : Option (List (List Char))) (rows : List ShortcutRow)
    (body : SnippetBody) (snip : HttpOutcome SnippetBody)
    (snet : HttpOutcome (List ShortcutRow)) (now now2 : Nat)
    (k : List Char) :
    fetchShortcuts (HttpOutcome.resp 401 rows)
        ⟨some tk, user, apiUrl, sh0, none⟩ =
      (⟨none, none, apiUrl, none, none⟩, Except.ok []) ∧
    handleMessage ⟨some tk, user, apiUrl, sh0, none⟩ now
        (HttpOutcome.resp 401 rows) snip BgMessage.GET_SHORTCUTS =
      (⟨none, none, apiUrl, some [], some now⟩,
        BgResponse.shortcutList []) ∧
    handleMessage ⟨none, none, apiUrl, some [], some now⟩ now2 snet snip
        BgMessage.GET_STATUS =
      (⟨none, none, apiUrl, some [], some now⟩,
        BgResponse.status false 0 none) ∧
    handleMessage ⟨some tk, user, apiUrl, sh0, none⟩ now snet
        (HttpOutcome.resp 401 body) (BgMessage.EXPAND_SHORTCUT k) =
      (⟨none, none, apiUrl, none, none⟩, BgResponse.NOT_LOGGED_IN) := by
  have hfetch : fetchShortcuts (HttpOutcome.resp 401 rows)
      ⟨some tk, user, apiUrl, sh0, none⟩ =
      (⟨none, none, apiUrl, none, none⟩, Except.ok []) := by
    simp [fetchShortcuts, clearAuth]
  refine ⟨hfetch, ?_, ?_, ?_⟩
  · have hget : getShortcuts ⟨some tk, user, apiUrl, sh0, none⟩ now false
        (HttpOutcome.resp 401 rows) =
        (⟨none, none, apiUrl, some [], some now⟩, true, Except.ok []) := by
      rw [getShortcuts]
      rw [if_neg (by simp [jsFalsyStr, htk])]
      rw [if_neg (by
        intro hcon
        have hstale := hcon.2.1
        apply hstale
        right
        left
        simp [jsFalsyNat])]
      rw [hfetch]
    simp only [handleMessage, hget]
  · simp [handleMessage, jsFalsyStr]
  · simp [handleMessage, clearAuth, jsFalsyStr, htk]

/-- Claim C5: the TTL-bounded cache.  With a stored list and a nonzero
fetch timestamp, a request one millisecond before the window expires is
served from the cache with no network fetch; one millisecond past the
window it refetches, stores the new list with the request timestamp, and
returns the new list. -/
theorem claim_C5 (tk : List Char) (htk : tk ≠ [])
    (user apiUrl : Option (List Char))
    (l : List (List Char)) (t0 : Nat) (ht0 : t0 ≠ 0)
    (net : HttpOutcome (List ShortcutRow)) (rows : List ShortcutRow) :
    getShortcuts ⟨some tk, user, apiUrl, some l, some t0⟩
        (t0 + CACHE_TTL_MS - 1) false net =
      (⟨some tk, user, apiUrl, some l, some t0⟩, false, Except.ok l) ∧
    getShortcuts ⟨some tk, user, apiUrl, some l, some t0⟩
        (t0 + CACHE_TTL_MS + 1) false (HttpOutcome.resp 200 rows) =
      (⟨some tk, user, apiUrl, some (rows.filterMap (fun r => r.shortcut)),
          some (t0 + CACHE_TTL_MS + 1)⟩, true,
        Except.ok (rows.filterMap (fun r => r.shortcut))) := by
  constructor
  · rw [getShortcuts]
    rw [if_neg (by simp [jsFalsyStr, htk])]
    rw [if_pos ?serve]
    case serve =>
      refine ⟨by simp, ?_, by simp⟩
      intro hstale
      rcases hstale with h1 | h1 | h1
      · simp at h1
      · simp [jsFalsyNat] at h1
        exact ht0 h1
      · simp only [Option.getD] at h1
        simp only [CACHE_TTL_MS] at h1
        omega
    simp
  · rw [getShortcuts]
    rw [if_neg (by simp [jsFalsyStr, htk])]
    rw [if_neg (by
      intro hcon
      apply hcon.2.1
      right
      right
      simp only [Option.getD]
      simp only [CACHE_TTL_MS]
      omega)]
    have hf : fetchShortcuts (HttpOutcome.resp 200 rows)
        ⟨some tk, user, apiUrl, some l, some t0⟩ =
        (⟨some tk, user, apiUrl, some l, some t0⟩,
          Except.ok (rows.filterMap (fun r => r.shortcut))) := by
      simp [fetchShortcuts, respOk]
    rw [hf]

/-- Closed instance of C4: after a 401 shortcut fetch, GET_STATUS reports
logged out with zero shortcuts, and EXPAND answers NOT_LOGGED_IN. -/
theorem claim_C4_witness :
    handleMessage ⟨some ['t'], some ['u'], none, some [['/', 'a']], none⟩ 7
        (HttpOutcome.resp 401 []) HttpOutcome.netError
        BgMessage.GET_SHORTCUTS =
      (⟨none, none, none, some [], some 7⟩,
        BgResponse.shortcutList []) ∧
    handleMessage ⟨none, none, none, some [], some 7⟩ 8
        HttpOutcome.netError HttpOutcome.netError BgMessage.GET_STATUS =
      (⟨none, none, none, some [], some 7⟩,
        BgResponse.status false 0 none) ∧
    handleMessage ⟨some ['t'], some ['u'], none, some [['/', 'a']], none⟩ 7
        HttpOutcome.netError (HttpOutcome.resp 401 ⟨[], none, []⟩)
        (BgMessage.EXPAND_SHORTCUT ['/', 'a']) =
      (⟨none, none, none, none, none⟩, BgResponse.NOT_LOGGED_IN) := by
  have h := claim_C4 ['t'] (by decide) (some ['u']) none (some [['/', 'a']])
    [] ⟨[], none, []⟩ HttpOutcome.netError HttpOutcome.netError 7 8
    ['/', 'a']
  exact ⟨h.2.1, h.2.2.1, h.2.2.2⟩

/-- Closed instance of C5: at t0 + W − 1 the cache is served without a
fetch, at t0 + W + 1 a refetch is stored and returned. -/
theorem claim_C5_witness :
    getShortcuts ⟨some ['t'], none, none, some [['/', 's']], some 5⟩
        (5 + CACHE_TTL_MS - 1) false HttpOutcome.netError =
      (⟨some ['t'], none, none, some [['/', 's']], some 5⟩, false,
        Except.ok [['/', 's']]) ∧
    getShortcuts ⟨some ['t'], none, none, some [['/', 's']], some 5⟩
        (5 + CACHE_TTL_MS + 1) false
        (HttpOutcome.resp 200 [⟨some ['/', 'z'], ['n']⟩]) =
      (⟨some ['t'], none, none, some [['/', 'z']],
          some (5 + CACHE_TTL_MS + 1)⟩, true,
        Except.ok [['/', 'z']]) := by
  have h := claim_C5 ['t'] (by decide) none none [['/', 's']] 5 (by decide)
    HttpOutcome.netError [⟨some ['/', 'z'], ['n']⟩]
  exact ⟨h.1, h.2⟩

/-- Closed instance of C6: the clipboard token is detected in plain
content, a failed read resolves to the empty clipboard text, and the token
substitutes to the empty string. -/
theorem claim_C6_witness :
    clipboardNeeded (varTokenLit clipboardName) none = true ∧
    clipboardTextResolved (varTokenLit clipboardName) none none = [] ∧
    applyStaticAndDynamic [] testEnv (varTokenLit clipboardName) false [] =
      [] := by
  have h := claim_C6 [] testEnv
  refine ⟨?_, h.2.1 _ none, h.2.2.2 false⟩
  exact (h.1 (varTokenLit clipboardName) none).mpr
    (Or.inl ⟨[], [], by simp [clipboardTokenLit]⟩)

/-! Contenteditable structural-mismatch abort. -/

/-- Claim C8: the contenteditable replace aborts atomically.  With no
active range, with a selection start container that is not a text node, or
with a typed trigger that does not fit in the text before the caret offset,
replaceInEditable performs no mutation (and, being a total function,
throws nothing). -/
theorem claim_C8 (sel : Option EditableCaret)
    (shortcut content : List Char) (htmlContent : Option (List Char))
    (habort : sel = none ∨
      (∃ c, sel = some c ∧ c.node = CaretNode.elementNode) ∨
      (∃ c s, sel = some c ∧ c.node = CaretNode.textNode s ∧
        (s.take c.offset).length < shortcut.length)) :
    replaceInEditable sel shortcut content htmlContent = none := by
  rcases habort with rfl | ⟨c, rfl, hnode⟩ | ⟨c, s, rfl, hnode, hlen⟩
  · rfl
  · rcases c with ⟨node, offset⟩
    simp only at hnode
    subst hnode
    rfl
  · rcases c with ⟨node, offset⟩
    simp only at hnode
    subst hnode
    simp only [replaceInEditable]
    rw [if_pos (by simpa using hlen)]

/-- Closed instance of C8: all three abort conditions leave the surface
untouched. -/
theorem claim_C8_witness :
    replaceInEditable none ['/', '/', 'a'] ['x'] none = none ∧
    replaceInEditable (some ⟨CaretNode.elementNode, 3⟩) ['/', '/', 'a']
        ['x'] none = none ∧
    replaceInEditable (some ⟨CaretNode.textNode ['a'], 1⟩) ['/', '/', 'a']
        ['x'] none = none :=
  ⟨claim_C8 _ _ _ _ (Or.inl rfl),
    claim_C8 _ _ _ _ (Or.inr (Or.inl ⟨_, rfl, rfl⟩)),
    claim_C8 _ _ _ _ (Or.inr (Or.inr ⟨_, ['a'], rfl, rfl, by decide⟩))⟩

end SnipLogic
